import Mathlib

/-!
Verification of the weighted-sampling, deep-structural, path-access and
checksum utilities of the repository.

The TypeScript sources are shallowly embedded: JavaScript numbers are
modelled as rationals (no NaN / rounding), `Math.random()` is an explicit
parameter `u` (one uniform draw) or `rng : Nat → Rat` (a stream of draws),
thrown exceptions become `Except` errors, and `undefined` results become
`Option.none`.
-/

namespace ArrayUtils

/-- Error class of the two exceptions thrown by the weighted helpers in
src/utils/arrayUtils.ts (`LengthMismatch`, `InvalidWeight`). -/
inductive WErr where
  | lengthMismatch
  | invalidWeight
deriving DecidableEq

/-- Cumulative-sum loop of `weightedSample` (src/utils/arrayUtils.ts lines
102-109): walk items and weights in parallel, accumulate the weights, and
return the first item whose running total reaches `random`.  Returns `none`
when the loop falls through without selecting. -/
def wloop {α : Type} : List α → List ℚ → ℚ → ℚ → Option α
  | a :: as, w :: ws, random, cum =>
      if random ≤ cum + w then some a else wloop as ws random (cum + w)
  | _, _, _, _ => none

/-- Model of `weightedSample` (src/utils/arrayUtils.ts lines 87-112).  The
uniform draw `Math.random()` is the explicit parameter `u`; the code takes
`random = u * totalWeight`.  The trailing `array[array.length - 1]` fallback
is the `getLast?` branch. -/
def weightedSample {α : Type} (array : List α) (weights : List ℚ) (u : ℚ) :
    Except WErr (Option α) :=
  if array.length = 0 ∨ weights.length = 0 then .ok none
  else if array.length ≠ weights.length then .error .lengthMismatch
  else if weights.any (fun w => w < 0) then .error .invalidWeight
  else
    let totalWeight := weights.sum
    if totalWeight = 0 then .ok none
    else
      let random := u * totalWeight
      match wloop array weights random 0 with
      | some x => .ok (some x)
      | none => .ok array.getLast?

/-- Inner loop of `weightedSampleSizeWithoutReplacement` (src/utils/
arrayUtils.ts lines 149-157): one iteration per fuel unit, drawing with
`rng i`, then removing the first occurrence (`indexOf`) of the drawn value
and its positionally paired weight (`splice`). -/
def wsswrLoop {α : Type} [DecidableEq α] :
    List α → List ℚ → ℕ → (ℕ → ℚ) → ℕ → Except WErr (List α)
  | _, _, 0, _, _ => .ok []
  | avail, aws, m + 1, rng, i =>
    match weightedSample avail aws (rng i) with
    | .error e => .error e
    | .ok none => wsswrLoop avail aws m rng (i + 1)
    | .ok (some x) =>
      let idx := avail.indexOf x
      match wsswrLoop (avail.eraseIdx idx) (aws.eraseIdx idx) m rng (i + 1) with
      | .error e => .error e
      | .ok rest => .ok (x :: rest)

/-- Model of `weightedSampleSizeWithoutReplacement` (src/utils/arrayUtils.ts
lines 134-160).  `n` is a JavaScript number compared with `<= 0`, hence `ℤ`;
the loop runs `min n array.length` times. -/
def weightedSampleSizeWithoutReplacement {α : Type} [DecidableEq α]
    (array : List α) (weights : List ℚ) (n : ℤ) (rng : ℕ → ℚ) :
    Except WErr (List α) :=
  if n ≤ 0 then .ok []
  else if array.length = 0 ∨ weights.length = 0 then .ok []
  else if array.length ≠ weights.length then .error .lengthMismatch
  else wsswrLoop array weights (min n.toNat array.length) rng 0

/-- Index-paired product sum `values.reduce((sum, value, index) => sum +
value * weights[index], 0)` shared by `weightedAverage` and `weightedSum`. -/
def dotSum (values weights : List ℚ) : ℚ :=
  (values.zip weights).foldl (fun s p => s + p.1 * p.2) 0

/-- Model of `weightedAverage` (src/utils/arrayUtils.ts lines 453-463). -/
def weightedAverage (values weights : List ℚ) : Except WErr ℚ :=
  if values.length = 0 ∨ weights.length = 0 then .ok 0
  else if values.length ≠ weights.length then .error .lengthMismatch
  else
    let ws := dotSum values weights
    let totalWeight := weights.sum
    .ok (if totalWeight = 0 then 0 else ws / totalWeight)

/-- Model of `weightedSum` (src/utils/arrayUtils.ts lines 468-475). -/
def weightedSum (values weights : List ℚ) : Except WErr ℚ :=
  if values.length = 0 ∨ weights.length = 0 then .ok 0
  else if values.length ≠ weights.length then .error .lengthMismatch
  else .ok (dotSum values weights)

/-- One `freq.set(item, (freq.get(item) || 0) + weight)` step on the
association-list model of the insertion-ordered JS `Map`. -/
def bump {α : Type} [DecidableEq α] : List (α × ℚ) → α → ℚ → List (α × ℚ)
  | [], x, w => [(x, w)]
  | (y, u) :: tl, x, w =>
      if y = x then (y, u + w) :: tl else (y, u) :: bump tl x w

/-- Model of `weightedFrequency` (src/utils/arrayUtils.ts lines 480-492).
Note the source has no empty-input guard before the length check. -/
def weightedFrequency {α : Type} [DecidableEq α]
    (array : List α) (weights : List ℚ) : Except WErr (List (α × ℚ)) :=
  if array.length ≠ weights.length then .error .lengthMismatch
  else .ok ((array.zip weights).foldl (fun m p => bump m p.1 p.2) [])

/-- Index-tracking loop of `weightedMax` (src/utils/arrayUtils.ts lines
503-511): strict `>` keeps the earliest maximal index. -/
def maxIdxLoop : List ℚ → ℚ → ℕ → ℕ → ℕ
  | [], _, best, _ => best
  | w :: rest, cur, best, i =>
      if cur < w then maxIdxLoop rest w i (i + 1)
      else maxIdxLoop rest cur best (i + 1)

/-- Index-tracking loop of `weightedMin` (src/utils/arrayUtils.ts lines
525-533): strict `<` keeps the earliest minimal index. -/
def minIdxLoop : List ℚ → ℚ → ℕ → ℕ → ℕ
  | [], _, best, _ => best
  | w :: rest, cur, best, i =>
      if w < cur then minIdxLoop rest w i (i + 1)
      else minIdxLoop rest cur best (i + 1)

/-- Model of `weightedMax` (src/utils/arrayUtils.ts lines 497-514). -/
def weightedMax {α : Type} (array : List α) (weights : List ℚ) :
    Except WErr (Option α) :=
  if array.length = 0 ∨ weights.length = 0 then .ok none
  else if array.length ≠ weights.length then .error .lengthMismatch
  else
    match weights with
    | [] => .ok none
    | w :: rest => .ok (array.get? (maxIdxLoop rest w 0 1))

/-- Model of `weightedMin` (src/utils/arrayUtils.ts lines 519-536). -/
def weightedMin {α : Type} (array : List α) (weights : List ℚ) :
    Except WErr (Option α) :=
  if array.length = 0 ∨ weights.length = 0 then .ok none
  else if array.length ≠ weights.length then .error .lengthMismatch
  else
    match weights with
    | [] => .ok none
    | w :: rest => .ok (array.get? (minIdxLoop rest w 0 1))

end ArrayUtils

namespace ArrayUtils

/-- Any value the cumulative-sum loop selects is one of the walked items. -/
theorem wloop_mem {α : Type} :
    ∀ (as : List α) (ws : List ℚ) (r c : ℚ) (x : α),
      wloop as ws r c = some x → x ∈ as := by
  intro as
  induction as with
  | nil => intro ws r c x h; simp [wloop] at h
  | cons a tl ih =>
    intro ws r c x h
    cases ws with
    | nil => simp [wloop] at h
    | cons w ws' =>
      rw [wloop] at h
      by_cases hr : r ≤ c + w
      · simp [hr] at h; simp [h]
      · simp [hr] at h
        exact List.mem_cons_of_mem _ (ih ws' r (c + w) x h)

end ArrayUtils

/-- C1 counterexample: the two sequences have differing lengths (1 and 0),
yet `weightedSample` returns the no-result value instead of failing with
`LengthMismatch`, because the source checks emptiness before comparing
lengths. -/
theorem weightedSample_mismatch_counterexample :
    ArrayUtils.weightedSample ["a"] ([] : List ℚ) (1 / 2) =
      .ok none ∧ (["a"] : List String).length ≠ ([] : List ℚ).length := by
  constructor
  · rfl
  · decide

/-- C1 (amended): `weightedSample` returns no result whenever either
sequence is empty, even if the lengths differ; only for two non-empty
sequences does it fail with `LengthMismatch` on differing lengths, then with
`InvalidWeight` on a negative weight, and it returns no result when the
total weight is exactly zero. -/
theorem weightedSample_contract {α : Type}
    (array : List α) (weights : List ℚ) (u : ℚ) :
    ((array = [] ∨ weights = []) →
      ArrayUtils.weightedSample array weights u = .ok none) ∧
    (array ≠ [] → weights ≠ [] → array.length ≠ weights.length →
      ArrayUtils.weightedSample array weights u = .error .lengthMismatch) ∧
    (array ≠ [] → weights ≠ [] → array.length = weights.length →
      (∃ w ∈ weights, w < 0) →
      ArrayUtils.weightedSample array weights u = .error .invalidWeight) ∧
    (array ≠ [] → weights ≠ [] → array.length = weights.length →
      (∀ w ∈ weights, 0 ≤ w) → weights.sum = 0 →
      ArrayUtils.weightedSample array weights u = .ok none) := by
  refine ⟨?_, ?_, ?_, ?_⟩
  · intro h
    rcases h with h | h <;>
      simp [ArrayUtils.weightedSample, h]
  · intro ha hw hlen
    rw [ArrayUtils.weightedSample]
    rw [if_neg (by simp [List.length_eq_zero, ha, hw]), if_pos hlen]
  · intro ha hw hlen hneg
    rw [ArrayUtils.weightedSample]
    rw [if_neg (by simp [List.length_eq_zero, ha, hw]), if_neg (by simp [hlen]),
      if_pos (by simpa [List.any_eq_true] using hneg)]
  · intro ha hw hlen hnn hsum
    rw [ArrayUtils.weightedSample]
    rw [if_neg (by simp [List.length_eq_zero, ha, hw]), if_neg (by simp [hlen]),
      if_neg (by simp [List.any_eq_true]; intro w hmem; exact hnn w hmem)]
    simp [hsum]

/-- Witness for C1: a concrete negative weight makes `weightedSample` fail
with `InvalidWeight`. -/
theorem weightedSample_contract_witness :
    ArrayUtils.weightedSample ["a"] [(-1 : ℚ)] 0 = .error .invalidWeight :=
  (weightedSample_contract ["a"] [(-1 : ℚ)] 0).2.2.1 (by simp) (by simp)
    (by simp) ⟨-1, by simp, by norm_num⟩

/-- C10: with non-empty equal-length inputs, non-negative weights and a
strictly positive total, `weightedSample` always returns an element of the
item sequence and never the no-result value, for every value of the uniform
draw; when the cumulative loop falls through, the last element is the
fallback. -/
theorem weightedSample_pos_total_mem {α : Type}
    (array : List α) (weights : List ℚ) (u : ℚ)
    (hne : array ≠ []) (hlen : array.length = weights.length)
    (hnn : ∀ w ∈ weights, 0 ≤ w) (hpos : 0 < weights.sum) :
    ∃ x ∈ array, ArrayUtils.weightedSample array weights u = .ok (some x) := by
  rw [ArrayUtils.weightedSample]
  rw [if_neg (by
        simp [List.length_eq_zero, hne]
        intro h
        rw [h] at hlen
        exact hne (List.length_eq_zero.1 hlen)),
    if_neg (by simp [hlen]),
    if_neg (by simp [List.any_eq_true]; intro w hmem; exact hnn w hmem)]
  simp only
  rw [if_neg (by exact ne_of_gt hpos)]
  cases hcase : ArrayUtils.wloop array weights (u * weights.sum) 0 with
  | some x =>
    exact ⟨x, ArrayUtils.wloop_mem array weights _ 0 x hcase, rfl⟩
  | none =>
    obtain ⟨x, hx, hmem⟩ : ∃ x, array.getLast? = some x ∧ x ∈ array := by
      cases array with
      | nil => exact absurd rfl hne
      | cons a tl =>
        exact ⟨(a :: tl).getLast (by simp), List.getLast?_eq_getLast _ _,
          List.getLast_mem _⟩
    exact ⟨x, hmem, by simp [hx]⟩

/-- Witness for C10, matching the spec example `weightedSample(["a"], [5])
== "a"`. -/
theorem weightedSample_pos_total_mem_witness :
    ∃ x ∈ ["a"], ArrayUtils.weightedSample ["a"] [(5 : ℚ)] (1 / 2) =
      .ok (some x) :=
  weightedSample_pos_total_mem ["a"] [(5 : ℚ)] (1 / 2) (by simp) (by simp)
    (by intro w hw; simp at hw; simp [hw]) (by norm_num)

namespace ArrayUtils

/-- A successful non-empty draw of `weightedSample` is an element of the
item sequence. -/
theorem weightedSample_ok_some_mem {α : Type}
    (array : List α) (weights : List ℚ) (u : ℚ) (x : α)
    (h : weightedSample array weights u = .ok (some x)) : x ∈ array := by
  rw [weightedSample] at h
  split at h
  · simp at h
  split at h
  · simp at h
  split at h
  · simp at h
  simp only at h
  split at h
  · simp at h
  split at h
  next y hy => simp at h; rw [← h]; exact wloop_mem _ _ _ _ _ hy
  next hy =>
    simp at h
    obtain ⟨hne, hx⟩ :=
      List.mem_getLast?_eq_getLast (show x ∈ array.getLast? from h)
    subst hx
    exact List.getLast_mem hne

/-- Removing the first occurrence of a member of a duplicate-free list
removes every occurrence of it. -/
theorem not_mem_eraseIdx_indexOf {α : Type} [DecidableEq α] :
    ∀ (l : List α), l.Nodup → ∀ x ∈ l, x ∉ l.eraseIdx (l.indexOf x) := by
  intro l
  induction l with
  | nil => intro _ x hx; simp at hx
  | cons a tl ih =>
    intro hnd x hx
    rw [List.nodup_cons] at hnd
    by_cases hax : a = x
    · subst hax
      simp [List.indexOf_cons_self]
      exact hnd.1
    · have hxtl : x ∈ tl := by
        rcases List.mem_cons.1 hx with h | h
        · exact absurd h.symm hax
        · exact h
      have hbeq : (a == x) = false := by simp [hax]
      rw [List.indexOf_cons, hbeq]
      simp only [cond_false]
      intro hmem
      rcases List.mem_cons.1 hmem with h | h
      · exact hax h.symm
      · exact ih hnd.2 x hxtl h

/-- Invariant of the without-replacement loop: from a duplicate-free pool it
returns a duplicate-free sub-multiset of the pool, of size at most the fuel. -/
theorem wsswrLoop_spec {α : Type} [DecidableEq α] :
    ∀ (m : ℕ) (avail : List α) (aws : List ℚ) (rng : ℕ → ℚ) (i : ℕ)
      (l : List α), avail.Nodup → wsswrLoop avail aws m rng i = .ok l →
      l.Nodup ∧ l.length ≤ m ∧ ∀ x ∈ l, x ∈ avail := by
  intro m
  induction m with
  | zero =>
    intro avail aws rng i l _ h
    rw [wsswrLoop] at h
    simp at h
    subst h
    simp
  | succ m ih =>
    intro avail aws rng i l hnd h
    rw [wsswrLoop] at h
    cases hs : weightedSample avail aws (rng i) with
    | error e => rw [hs] at h; simp at h
    | ok o =>
      cases o with
      | none =>
        rw [hs] at h
        obtain ⟨h1, h2, h3⟩ := ih avail aws rng (i + 1) l hnd h
        exact ⟨h1, Nat.le_succ_of_le h2, h3⟩
      | some x =>
        rw [hs] at h
        simp only at h
        cases hr : wsswrLoop (avail.eraseIdx (avail.indexOf x))
            (aws.eraseIdx (avail.indexOf x)) m rng (i + 1) with
        | error e => rw [hr] at h; simp at h
        | ok rest =>
          rw [hr] at h
          simp at h
          have hxmem : x ∈ avail := weightedSample_ok_some_mem _ _ _ _ hs
          have hsub : avail.eraseIdx (avail.indexOf x) ⊆ avail :=
            (List.eraseIdx_sublist avail (avail.indexOf x)).subset
          have hnd' : (avail.eraseIdx (avail.indexOf x)).Nodup :=
            hnd.sublist (List.eraseIdx_sublist avail (avail.indexOf x))
          obtain ⟨h1, h2, h3⟩ := ih _ _ rng (i + 1) rest hnd' hr
          have hxrest : x ∉ rest := fun hc =>
            not_mem_eraseIdx_indexOf avail hnd x hxmem (h3 x hc)
          refine ⟨?_, ?_, ?_⟩
          · rw [← h]; exact List.nodup_cons.2 ⟨hxrest, h1⟩
          · rw [← h]; simpa using Nat.succ_le_succ h2
          · rw [← h]
            intro y hy
            rcases List.mem_cons.1 hy with hya | hyr
            · rw [hya]; exact hxmem
            · exact hsub (h3 y hyr)

end ArrayUtils

/-- C3 counterexample: with duplicate item values (["a", "a"], weights
[1, 1], n = 2, both uniform draws 1/2) the without-replacement sampler
returns ["a", "a"], which contains duplicate elements, contradicting the
claim that it never returns duplicates. -/
theorem wsswr_duplicates_counterexample :
    ArrayUtils.weightedSampleSizeWithoutReplacement ["a", "a"]
        [(1 : ℚ), 1] 2 (fun _ => 1 / 2) = .ok ["a", "a"] ∧
      ¬ (["a", "a"] : List String).Nodup := by
  constructor
  · norm_num [ArrayUtils.weightedSampleSizeWithoutReplacement,
      ArrayUtils.wsswrLoop, ArrayUtils.weightedSample, ArrayUtils.wloop]
  · decide

/-- C3 (amended): when the item values are pairwise distinct, the
without-replacement sampler never returns duplicate elements, never returns
more than `min n items.length` elements, and every returned element comes
from the item pool; with duplicated values, `indexOf` removes the first
occurrence of the drawn value (not necessarily the drawn position with its
paired weight), so duplicates can be returned. -/
theorem wsswr_distinct_nodup {α : Type} [DecidableEq α]
    (array : List α) (weights : List ℚ) (n : ℤ) (rng : ℕ → ℚ) (l : List α)
    (hnd : array.Nodup)
    (h : ArrayUtils.weightedSampleSizeWithoutReplacement array weights n rng
      = .ok l) :
    l.Nodup ∧ l.length ≤ min n.toNat array.length ∧ ∀ x ∈ l, x ∈ array := by
  rw [ArrayUtils.weightedSampleSizeWithoutReplacement] at h
  split at h
  · simp at h
    subst h
    simp
  split at h
  · simp at h
    subst h
    simp
  split at h
  · simp at h
  · exact ArrayUtils.wsswrLoop_spec _ array weights rng 0 l hnd h

/-- Witness for C3 (amended) on the pool ["a", "b"] with n = 1. -/
theorem wsswr_distinct_nodup_witness :
    (["a"] : List String).Nodup ∧
      (["a"] : List String).length ≤
        min (1 : ℤ).toNat (["a", "b"] : List String).length ∧
      ∀ x ∈ (["a"] : List String), x ∈ (["a", "b"] : List String) :=
  wsswr_distinct_nodup ["a", "b"] [(1 : ℚ), 1] 1 (fun _ => 0) ["a"]
    (by decide)
    (by simp [ArrayUtils.weightedSampleSizeWithoutReplacement,
      ArrayUtils.wsswrLoop, ArrayUtils.weightedSample, ArrayUtils.wloop,
      (not_lt.2 zero_le_one : ¬ (1 : ℚ) < 0)])

/-- C9 counterexample: `weightedAverage` accepts unequal-length inputs
(lengths 1 and 0) and returns 0 instead of failing with `LengthMismatch`,
while `weightedFrequency` fails with `LengthMismatch` on a zero-length
first input instead of accepting it — so the uniform contract the claim
states does not hold for every weighted aggregate operation. -/
theorem weightedAggregates_counterexample :
    ArrayUtils.weightedAverage [1] [] = .ok 0 ∧
      ([(1 : ℚ)] : List ℚ).length ≠ ([] : List ℚ).length ∧
      ArrayUtils.weightedFrequency ([] : List String) [1] =
        .error .lengthMismatch := by
  refine ⟨rfl, by decide, rfl⟩

/-- C9 (amended): `weightedAverage`, `weightedSum`, `weightedMax` and
`weightedMin` return their zero/none result whenever either input is empty,
even if the lengths differ, and fail with `LengthMismatch` exactly when both
inputs are non-empty with differing lengths; `weightedFrequency` has no
empty-input guard, failing with `LengthMismatch` on any differing lengths
(including a single empty side) and returning the empty map on two empty
inputs. -/
theorem weightedAggregates_contract {α : Type} [DecidableEq α]
    (values weights : List ℚ) (array : List α) (ws : List ℚ) :
    ((values = [] ∨ weights = []) →
      ArrayUtils.weightedAverage values weights = .ok 0 ∧
        ArrayUtils.weightedSum values weights = .ok 0) ∧
    (values ≠ [] → weights ≠ [] → values.length ≠ weights.length →
      ArrayUtils.weightedAverage values weights = .error .lengthMismatch ∧
        ArrayUtils.weightedSum values weights = .error .lengthMismatch) ∧
    ((array = [] ∨ ws = []) →
      ArrayUtils.weightedMax array ws = .ok none ∧
        ArrayUtils.weightedMin array ws = .ok none) ∧
    (array ≠ [] → ws ≠ [] → array.length ≠ ws.length →
      ArrayUtils.weightedMax array ws = .error .lengthMismatch ∧
        ArrayUtils.weightedMin array ws = .error .lengthMismatch) ∧
    (array.length ≠ ws.length →
      ArrayUtils.weightedFrequency array ws = .error .lengthMismatch) ∧
    (ArrayUtils.weightedFrequency ([] : List α) ([] : List ℚ) = .ok []) := by
  refine ⟨?_, ?_, ?_, ?_, ?_, ?_⟩
  · intro h
    rcases h with h | h <;>
      constructor <;>
        simp [ArrayUtils.weightedAverage, ArrayUtils.weightedSum, h]
  · intro hv hw hlen
    constructor
    · rw [ArrayUtils.weightedAverage,
        if_neg (by simp [List.length_eq_zero, hv, hw]), if_pos hlen]
    · rw [ArrayUtils.weightedSum,
        if_neg (by simp [List.length_eq_zero, hv, hw]), if_pos hlen]
  · intro h
    rcases h with h | h <;>
      constructor <;>
        simp [ArrayUtils.weightedMax, ArrayUtils.weightedMin, h]
  · intro ha hw hlen
    constructor
    · rw [ArrayUtils.weightedMax.eq_def,
        if_neg (by simp [List.length_eq_zero, ha, hw]), if_pos hlen]
    · rw [ArrayUtils.weightedMin.eq_def,
        if_neg (by simp [List.length_eq_zero, ha, hw]), if_pos hlen]
  · intro hlen
    rw [ArrayUtils.weightedFrequency, if_pos hlen]
  · rfl

/-- Witness for C9 (amended): one empty side of `weightedAverage` yields the
zero result, and mismatched non-empty lengths make `weightedMax` fail. -/
theorem weightedAggregates_contract_witness :
    (ArrayUtils.weightedAverage [1] [] = .ok 0 ∧
      ArrayUtils.weightedSum [1] [] = .ok 0) ∧
      (ArrayUtils.weightedMax ["a"] [(1 : ℚ), 2] = .error .lengthMismatch ∧
        ArrayUtils.weightedMin ["a"] [(1 : ℚ), 2] = .error .lengthMismatch) :=
  ⟨(weightedAggregates_contract [1] [] (["a"] : List String)
      [(1 : ℚ), 2]).1 (Or.inr rfl),
    (weightedAggregates_contract [1] [] (["a"] : List String)
      [(1 : ℚ), 2]).2.2.2.1 (by simp) (by simp) (by decide)⟩

namespace Luhn

/-- Doubling step of the Luhn loop shared verbatim by the two sources:
double the digit and subtract 9 when the doubling exceeds 9. -/
def luhnAdj (d : ℕ) : ℕ :=
  if d * 2 > 9 then d * 2 - 9 else d * 2

/-- Right-to-left Luhn summation loop (src/utils/validationUtils.ts lines
274-286 and the identical loop of the string-utilities source): the list is
the digit sequence already reversed, `isEven` is the alternation flag that
starts `false` and toggles each step. -/
def luhnLoop : List ℕ → Bool → ℕ
  | [], _ => 0
  | d :: rest, isEven => (if isEven then luhnAdj d else d) + luhnLoop rest (!isEven)

/-- Digit extraction `value.replace(/\D/g, '')` followed by per-character
`parseInt`: keep the decimal digit characters and read their values. -/
def luhnDigits (s : String) : List ℕ :=
  (s.data.filter Char.isDigit).map (fun c => c.toNat - 48)

end Luhn

namespace StringUtils

/-- Model of `isValidCreditCard` from the string-utilities source
(src/unnamed/part_001 lines 532-554). -/
def isValidCreditCard (str : String) : Bool :=
  let cleaned := Luhn.luhnDigits str
  if cleaned.length < 13 ∨ cleaned.length > 19 then false
  else decide (Luhn.luhnLoop cleaned.reverse false % 10 = 0)

end StringUtils

namespace ValidationUtils

/-- Model of `isCreditCard` (src/utils/validationUtils.ts lines 265-289).
The `isString` guard is identically true for a `String` argument. -/
def isCreditCard (value : String) : Bool :=
  let cleaned := Luhn.luhnDigits value
  if cleaned.length < 13 ∨ cleaned.length > 19 then false
  else decide (Luhn.luhnLoop cleaned.reverse false % 10 = 0)

end ValidationUtils

namespace Luhn

/-- Specification-side Luhn sum, written from the spec text: iterate the
digits right-to-left (indices of the reversed sequence) and double every
second digit, i.e. those at odd 0-based offsets from the right, applying
the subtract-9 adjustment. -/
def luhnSpecSum (ds : List ℕ) : ℕ :=
  ((ds.reverse.enum).map (fun p => if p.1 % 2 = 1 then luhnAdj p.2 else p.2)).sum

/-- The alternation flag of the source loop tracks the parity of the
position offset. -/
theorem luhnLoop_enumFrom :
    ∀ (l : List ℕ) (k : ℕ),
      luhnLoop l (decide (k % 2 = 1)) =
        ((l.enumFrom k).map
          (fun p => if p.1 % 2 = 1 then luhnAdj p.2 else p.2)).sum := by
  intro l
  induction l with
  | nil => intro k; simp [luhnLoop]
  | cons d rest ih =>
    intro k
    have hflag : (!decide (k % 2 = 1)) = decide ((k + 1) % 2 = 1) := by
      rcases Nat.mod_two_eq_zero_or_one k with h | h <;>
        simp [h, Nat.succ_mod_two_eq_one_iff]
    rw [luhnLoop, hflag, ih (k + 1)]
    simp [List.enumFrom]

/-- The source loop started with flag `false` computes exactly the
spec-side indexed Luhn sum of the reversed digits. -/
theorem luhnLoop_eq_specSum (ds : List ℕ) :
    luhnLoop ds.reverse false = luhnSpecSum ds := by
  have h := luhnLoop_enumFrom ds.reverse 0
  simpa [luhnSpecSum, List.enum] using h

end Luhn

/-- C8: `isValidCreditCard` and `isCreditCard` agree on every string; both
strip non-digit characters, return false (not an error) when the digit
count falls outside [13, 19], and otherwise accept exactly when the Luhn
sum — doubling every second digit from the right with the subtract-9
adjustment — is divisible by 10; the two spec examples hold. -/
theorem isValidCreditCard_luhn (s : String) :
    StringUtils.isValidCreditCard s = ValidationUtils.isCreditCard s ∧
      ((Luhn.luhnDigits s).length < 13 ∨ 19 < (Luhn.luhnDigits s).length →
        StringUtils.isValidCreditCard s = false) ∧
      (13 ≤ (Luhn.luhnDigits s).length → (Luhn.luhnDigits s).length ≤ 19 →
        (StringUtils.isValidCreditCard s = true ↔
          Luhn.luhnSpecSum (Luhn.luhnDigits s) % 10 = 0)) ∧
      StringUtils.isValidCreditCard "4532015112830366" = true ∧
      StringUtils.isValidCreditCard "1234567890123456" = false := by
  refine ⟨rfl, ?_, ?_, by decide, by decide⟩
  · intro h
    simp only [StringUtils.isValidCreditCard]
    rw [if_pos (by omega)]
  · intro h13 h19
    simp only [StringUtils.isValidCreditCard]
    rw [if_neg (by omega), Luhn.luhnLoop_eq_specSum]
    simp

/-- Witness for C8 on the valid spec example: the digit count is in range
and the validity test coincides with the spec-side Luhn sum criterion. -/
theorem isValidCreditCard_luhn_witness :
    StringUtils.isValidCreditCard "4532015112830366" = true ↔
      Luhn.luhnSpecSum (Luhn.luhnDigits "4532015112830366") % 10 = 0 :=
  (isValidCreditCard_luhn "4532015112830366").2.2.1 (by decide) (by decide)

namespace ObjectUtils

/-- Value universe for the path-addressed access operations of
src/utils/objectUtils.ts: null, undefined, the JS primitives, and plain
records.  Arrays and other exotic objects are outside this path model;
property access on records is own-key only (prototype members are outside
the model). -/
inductive PVal : Type where
  | vnull
  | vundefined
  | vbool (b : Bool)
  | vnum (q : ℚ)
  | vstr (s : String)
  | vobj (fields : List (String × PVal))

/-- Accumulator-based model of `path.split('.')`: JavaScript semantics,
so the empty string yields `[""]` and consecutive delimiters yield empty
segments. -/
def splitDotAux : List Char → List Char → List String
  | [], acc => [String.mk acc.reverse]
  | c :: rest, acc =>
      if c = '.' then String.mk acc.reverse :: splitDotAux rest []
      else splitDotAux rest (c :: acc)

/-- Segments of a dotted path, `path.split('.')`. -/
def pathSegs (path : String) : List String :=
  splitDotAux path.data []

/-- The `typeof` operator on the path-model universe; note
`typeof null === 'object'`. -/
def pTypeof : PVal → String
  | .vnull => "object"
  | .vundefined => "undefined"
  | .vbool _ => "boolean"
  | .vnum _ => "number"
  | .vstr _ => "string"
  | .vobj _ => "object"

/-- The `key in current` test where it is defined: own-key membership on a
record.  `none` models the TypeError thrown when `in` is applied to a
non-object right operand (null, undefined, or a primitive). -/
def pInOpt : PVal → String → Option Bool
  | .vobj fs, k => some (fs.any (fun kv => kv.1 == k))
  | _, _ => none

/-- Property read `current[key]` on a record (first matching own key,
`undefined` when absent); only reached after a successful `in` test. -/
def pIdx : PVal → String → PVal
  | .vobj fs, k =>
      match fs.find? (fun kv => kv.1 == k) with
      | some kv => kv.2
      | none => .vundefined
  | _, _ => .vundefined

/-- Loop of `get` (src/utils/objectUtils.ts lines 89-94): for each segment,
return the default when the current value is null, undefined, or lacks the
key; the `in` test throws on a non-null primitive. -/
def getLoop : PVal → List String → PVal → Except Unit PVal
  | cur, [], _ => .ok cur
  | cur, k :: ks, dflt =>
      match cur with
      | .vnull => .ok dflt
      | .vundefined => .ok dflt
      | _ =>
          match pInOpt cur k with
          | none => .error ()
          | some kin =>
              if kin then getLoop (pIdx cur k) ks dflt else .ok dflt

/-- Model of `get` (src/utils/objectUtils.ts lines 85-97); the unspecified
`defaultValue` is `vundefined` at call sites that omit it. -/
def getJS (obj : PVal) (path : String) (defaultValue : PVal) :
    Except Unit PVal :=
  getLoop obj (pathSegs path) defaultValue

/-- Loop of `has` (src/utils/objectUtils.ts lines 124-129): same traversal
and short-circuit rule as `get`, returning a boolean. -/
def hasLoop : PVal → List String → Except Unit Bool
  | _, [] => .ok true
  | cur, k :: ks =>
      match cur with
      | .vnull => .ok false
      | .vundefined => .ok false
      | _ =>
          match pInOpt cur k with
          | none => .error ()
          | some kin =>
              if kin then hasLoop (pIdx cur k) ks else .ok false

/-- Model of `has` (src/utils/objectUtils.ts lines 120-132). -/
def hasJS (obj : PVal) (path : String) : Except Unit Bool :=
  hasLoop obj (pathSegs path)

/-- JS property assignment on a record: overwrite the first field with the
key (keeping its position) or append a new field in insertion order. -/
def updF : List (String × PVal) → String → PVal → List (String × PVal)
  | [], k, v => [(k, v)]
  | (k2, v2) :: tl, k, v =>
      if k2 == k then (k2, v) :: tl else (k2, v2) :: updF tl k v

/-- The assignment `current[key] = value`.  On a record it updates the
field; on null, undefined, or a primitive it throws (strict-mode
TypeError). -/
def pAssign : PVal → String → PVal → Except Unit PVal
  | .vobj fs, k, v => .ok (.vobj (updF fs k v))
  | _, _, _ => .error ()

/-- Loop of `set` (src/utils/objectUtils.ts lines 106-114): for every
segment but the last, replace the value at the segment by a fresh empty
record when the key is absent or its value is not typeof-object, then
descend; the final segment is assigned unconditionally.  The in-place
mutation of the source is rendered functionally by rebuilding the record
spine on the way out. -/
def setLoop : PVal → String → List String → PVal → Except Unit PVal
  | cur, k, [], v => pAssign cur k v
  | cur, k, k2 :: ks, v =>
      match pInOpt cur k with
      | none => .error ()
      | some kin =>
          let child := pIdx cur k
          let child2 := if !kin || pTypeof child != "object" then .vobj [] else child
          match setLoop child2 k2 ks v with
          | .error e => .error e
          | .ok r => pAssign cur k r

/-- Model of `set` (src/utils/objectUtils.ts lines 102-115).  A path always
splits into at least one segment, so the first arm is unreachable. -/
def setJS (obj : PVal) (path : String) (value : PVal) : Except Unit PVal :=
  match pathSegs path with
  | [] => .error ()
  | k :: ks => setLoop obj k ks value

end ObjectUtils

namespace ObjectUtils

/-- Outcome classifier for a path walk, written from the amended reading of
the spec: the walk either finishes on the fully resolved value, misses
(an intermediate is null, undefined, or a record lacking the segment), or
stops on a non-null primitive intermediate. -/
inductive Walk : Type where
  | hit (v : PVal)
  | miss
  | primStop

/-- Specification-side walk of a segment list over a value. -/
def walkClass : PVal → List String → Walk
  | cur, [] => .hit cur
  | .vnull, _ :: _ => .miss
  | .vundefined, _ :: _ => .miss
  | .vobj fs, k :: ks =>
      if fs.any (fun kv => kv.1 == k) then walkClass (pIdx (.vobj fs) k) ks
      else .miss
  | _, _ :: _ => .primStop

end ObjectUtils

/-- C5 counterexample: the intermediate segment "a" resolves to the
primitive number 5, which is not traversable, yet `get` raises a TypeError
(the `in` operator applied to a primitive) instead of returning the
supplied default "d". -/
theorem get_primitive_raises_counterexample :
    ObjectUtils.getJS
        (ObjectUtils.PVal.vobj [("a", ObjectUtils.PVal.vnum 5)]) "a.b"
        (ObjectUtils.PVal.vstr "d") = .error () := rfl

/-- Helper for C5: the `get` loop is classified exactly by the spec-side
walk: resolved value on a hit, the default on a miss, and a TypeError on a
non-null primitive intermediate. -/
theorem getLoop_eq_walkClass :
    ∀ (keys : List String) (obj dflt : ObjectUtils.PVal),
      ObjectUtils.getLoop obj keys dflt =
        (match ObjectUtils.walkClass obj keys with
          | .hit v => .ok v
          | .miss => .ok dflt
          | .primStop => .error ()) := by
  intro keys
  induction keys with
  | nil =>
    intro obj dflt
    cases obj <;> simp [ObjectUtils.getLoop, ObjectUtils.walkClass]
  | cons k ks ih =>
    intro obj dflt
    cases obj
    case vnull => simp [ObjectUtils.getLoop, ObjectUtils.walkClass]
    case vundefined => simp [ObjectUtils.getLoop, ObjectUtils.walkClass]
    case vbool b =>
      simp [ObjectUtils.getLoop, ObjectUtils.walkClass, ObjectUtils.pInOpt]
    case vnum q =>
      simp [ObjectUtils.getLoop, ObjectUtils.walkClass, ObjectUtils.pInOpt]
    case vstr t =>
      simp [ObjectUtils.getLoop, ObjectUtils.walkClass, ObjectUtils.pInOpt]
    case vobj fs =>
      simp only [ObjectUtils.getLoop, ObjectUtils.walkClass, ObjectUtils.pInOpt]
      by_cases hk : fs.any (fun kv => kv.1 == k)
      · rw [if_pos hk, if_pos hk, ih]
      · rw [if_neg hk, if_neg hk]

/-- C5 (amended): `get` returns the default the moment any intermediate
segment is missing, null, or undefined, and otherwise returns the final
resolved value; however, when an intermediate segment resolves to a
non-null, non-undefined primitive, the `in` operator raises a TypeError
instead of returning the default. -/
theorem get_default_contract (obj : ObjectUtils.PVal) (path : String)
    (dflt : ObjectUtils.PVal) :
    ObjectUtils.getJS obj path dflt =
      (match ObjectUtils.walkClass obj (ObjectUtils.pathSegs path) with
        | .hit v => .ok v
        | .miss => .ok dflt
        | .primStop => .error ()) :=
  getLoop_eq_walkClass (ObjectUtils.pathSegs path) obj dflt

namespace ObjectUtils

/-- Plain own-field resolution of a segment list, used to state what a
successful `set` leaves at the written path. -/
def resolve : PVal → List String → Option PVal
  | cur, [] => some cur
  | .vobj fs, k :: ks =>
      match fs.find? (fun kv => kv.1 == k) with
      | some kv => resolve kv.2 ks
      | none => none
  | _, _ :: _ => none

/-- Own-key membership on records. -/
def pHasKey : PVal → String → Bool
  | .vobj fs, k => fs.any (fun kv => kv.1 == k)
  | _, _ => false

/-- Record recognizer. -/
def isObjB : PVal → Bool
  | .vobj _ => true
  | _ => false

/-- The value at a segment after the replacement policy of the `set` walk:
keep the existing value when the key is present with a typeof-object value,
otherwise a fresh empty record. -/
def childPolicy (cur : PVal) (k : String) : PVal :=
  let child := pIdx cur k
  if pHasKey cur k && (pTypeof child == "object") then child else .vobj []

/-- Specification-side success predicate for the `set` walk, from the
amended reading: the start value and every intermediate reached after the
replacement policy must be a record (in particular, never null). -/
def setOK : PVal → String → List String → Bool
  | cur, _, [] => isObjB cur
  | cur, k, k2 :: ks => isObjB cur && setOK (childPolicy cur k) k2 ks

/-- Resolving the key just assigned by `updF` yields the assigned value. -/
theorem resolve_updF :
    ∀ (fs : List (String × PVal)) (k : String) (v : PVal) (ks : List String),
      resolve (.vobj (updF fs k v)) (k :: ks) = resolve v ks := by
  intro fs
  induction fs with
  | nil =>
    intro k v ks
    simp [updF, resolve, List.find?]
  | cons hd tl ih =>
    intro k v ks
    rcases hd with ⟨k2, v2⟩
    by_cases hk : k2 == k
    · simp [updF, hk, resolve, List.find?]
    · have hkb : (k2 == k) = false := by simpa using hk
      have htl := ih k v ks
      rw [resolve] at htl
      simp [updF, hkb, resolve, List.find?, htl]

/-- The walk of `set` succeeds and stores the value at the path whenever
`setOK` holds along the way. -/
theorem setLoop_ok :
    ∀ (ks : List String) (cur : PVal) (k : String) (v : PVal),
      setOK cur k ks = true →
      ∃ r, setLoop cur k ks v = .ok r ∧ resolve r (k :: ks) = some v := by
  intro ks
  induction ks with
  | nil =>
    intro cur k v h
    cases cur <;> simp [setOK, isObjB] at h
    case vobj fs =>
      refine ⟨.vobj (updF fs k v), by simp [setLoop, pAssign], ?_⟩
      rw [resolve_updF]
      cases v <;> simp [resolve]
  | cons k2 ks ih =>
    intro cur k v h
    cases cur <;> simp [setOK, isObjB] at h
    case vobj fs =>
      have hchild :
          (if !(fs.any (fun kv => kv.1 == k)) ||
              pTypeof (pIdx (.vobj fs) k) != "object"
            then PVal.vobj []
            else pIdx (.vobj fs) k) = childPolicy (.vobj fs) k := by
        rw [childPolicy]
        simp only [pHasKey]
        by_cases h1 : fs.any (fun kv => kv.1 == k)
        · by_cases h2 : pTypeof (pIdx (.vobj fs) k) == "object"
          · simp [h1, h2]
            intro hcon
            rw [beq_iff_eq] at h2
            exact absurd h2 hcon
          · have h2b : (pTypeof (pIdx (.vobj fs) k) == "object") = false := by
              simpa using h2
            simp [h1, h2b]
            intro hcon
            rw [hcon] at h2b
            simp at h2b
        · simp [h1]
      obtain ⟨r2, hr2, hres⟩ := ih (childPolicy (.vobj fs) k) k2 v h
      refine ⟨.vobj (updF fs k r2), ?_, ?_⟩
      · rw [setLoop]
        simp only [pInOpt, hchild]
        rw [hr2]
        rfl
      · rw [resolve_updF]
        exact hres

/-- Specification-side success predicate at path granularity. -/
def setOKPath (obj : PVal) (path : String) : Bool :=
  match pathSegs path with
  | [] => false
  | k :: ks => setOK obj k ks

end ObjectUtils

/-- C6 counterexample: with obj = &#123;a: null&#125; and path "a.b", the
intermediate value null has typeof 'object', so the walk does not replace
it with an empty record, and the final assignment throws a TypeError
instead of storing the value. -/
theorem set_null_intermediate_counterexample :
    ObjectUtils.setJS (ObjectUtils.PVal.vobj [("a", ObjectUtils.PVal.vnull)])
        "a.b" (ObjectUtils.PVal.vnum 1) = .error () := rfl

/-- C6 (amended): `set` walks each segment except the last, creating an
empty record at any position whose current value is absent or not of typeof
'object', and assigns the supplied value at the final segment, overwriting
any existing content — provided no intermediate position holds null (which
is typeof 'object', is kept, and makes the next step throw a TypeError);
on success the assigned value is resolvable at the written path. -/
theorem set_assigns (obj : ObjectUtils.PVal) (path : String)
    (v : ObjectUtils.PVal)
    (h : ObjectUtils.setOKPath obj path = true) :
    ∃ r, ObjectUtils.setJS obj path v = .ok r ∧
      ObjectUtils.resolve r (ObjectUtils.pathSegs path) = some v := by
  rw [ObjectUtils.setOKPath] at h
  rw [ObjectUtils.setJS]
  cases hsegs : ObjectUtils.pathSegs path with
  | nil => rw [hsegs] at h; simp at h
  | cons k ks =>
    rw [hsegs] at h
    exact ObjectUtils.setLoop_ok ks obj k v h

/-- Witness for C6 (amended): setting "a.b" on an empty record creates the
intermediate record and stores the value. -/
theorem set_assigns_witness :
    ∃ r, ObjectUtils.setJS (ObjectUtils.PVal.vobj []) "a.b"
        (ObjectUtils.PVal.vnum 7) = .ok r ∧
      ObjectUtils.resolve r (ObjectUtils.pathSegs "a.b") =
        some (ObjectUtils.PVal.vnum 7) :=
  set_assigns (ObjectUtils.PVal.vobj []) "a.b" (ObjectUtils.PVal.vnum 7) rfl

/-- C7 counterexample: on obj = &#123;a: 1&#125; the empty raw path does not
resolve to the root for reads: `get(obj, "")` returns the default
(undefined here), which differs from the root object, and `has(obj, "")`
reports false. -/
theorem get_empty_path_counterexample :
    ObjectUtils.getJS (ObjectUtils.PVal.vobj [("a", ObjectUtils.PVal.vnum 1)])
        "" ObjectUtils.PVal.vundefined = .ok ObjectUtils.PVal.vundefined ∧
      ObjectUtils.PVal.vundefined ≠
        ObjectUtils.PVal.vobj [("a", ObjectUtils.PVal.vnum 1)] ∧
      ObjectUtils.hasJS
          (ObjectUtils.PVal.vobj [("a", ObjectUtils.PVal.vnum 1)]) "" =
        .ok false :=
  ⟨rfl, fun h => ObjectUtils.PVal.noConfusion h, rfl⟩

/-- C7 (amended): the empty raw path splits into the single empty-string
segment, so the read operations treat it as the key "": `get` returns the
value stored at the "" key when present and the default otherwise (never
the root itself), `has` reports exactly whether an own "" key exists, and
`set` with the empty path is not rejected but assigns the "" property. -/
theorem empty_path_is_empty_key
    (fs : List (String × ObjectUtils.PVal)) (dflt v : ObjectUtils.PVal) :
    ObjectUtils.getJS (.vobj fs) "" dflt =
      .ok (match fs.find? (fun kv => kv.1 == "") with
        | some kv => kv.2
        | none => dflt) ∧
    ObjectUtils.hasJS (.vobj fs) "" =
      .ok (fs.any (fun kv => kv.1 == "")) ∧
    ObjectUtils.setJS (.vobj fs) "" v =
      .ok (.vobj (ObjectUtils.updF fs "" v)) := by
  have hsegs : ObjectUtils.pathSegs "" = [""] := rfl
  refine ⟨?_, ?_, ?_⟩
  · rw [ObjectUtils.getJS, hsegs]
    cases hf : fs.find? (fun kv => kv.1 == "") with
    | some kv =>
      have hp := List.find?_some hf
      have hany : fs.any (fun kv => kv.1 == "") = true :=
        List.any_eq_true.2 ⟨kv, List.mem_of_find?_eq_some hf, hp⟩
      simp [ObjectUtils.getLoop, ObjectUtils.pInOpt, ObjectUtils.pIdx,
        hany, hf]
    | none =>
      have hany : fs.any (fun kv => kv.1 == "") = false := by
        rw [List.any_eq_false]
        intro kv hkv
        have := List.find?_eq_none.1 hf kv hkv
        simpa using this
      simp [ObjectUtils.getLoop, ObjectUtils.pInOpt, hany]
  · rw [ObjectUtils.hasJS, hsegs]
    cases hany : fs.any (fun kv => kv.1 == "") with
    | true => simp [ObjectUtils.hasLoop, ObjectUtils.pInOpt, hany]
    | false => simp [ObjectUtils.hasLoop, ObjectUtils.pInOpt, hany]
  · rw [ObjectUtils.setJS]
    rfl

namespace ObjectUtils

/-- JavaScript primitive values for the deep-structural operations
(numbers as rationals, so NaN and rounding are outside the model). -/
inductive Prim : Type where
  | pnull
  | pundefined
  | pbool (b : Bool)
  | pnum (q : ℚ)
  | pstr (s : String)
deriving DecidableEq

mutual
inductive JVal : Type where
  | prim (p : Prim)
  | date (id : ℕ) (time : ℤ)
  | arr (id : ℕ) (elems : JList)
  | obj (id : ℕ) (fields : JFields)
  | jset (id : ℕ) (elems : JList)
  | jmap (id : ℕ) (entries : JEntries)
inductive JList : Type where
  | nil
  | cons (hd : JVal) (tl : JList)
inductive JFields : Type where
  | nil
  | cons (key : String) (val : JVal) (tl : JFields)
inductive JEntries : Type where
  | nil
  | cons (key : JVal) (val : JVal) (tl : JEntries)
end

/- Composite values (everything with reference identity) carry an
allocation id modelling their heap reference: two values are the same
reference exactly when they are the same tree with the same ids; `jsEqV`
is the strict-equality operator `===` under that reading. -/
mutual
def jsEqV : JVal → JVal → Bool
  | .prim p, .prim q => decide (p = q)
  | .date i t, .date j u => decide (i = j) && decide (t = u)
  | .arr i es, .arr j fs => decide (i = j) && jsEqL es fs
  | .obj i fs, .obj j gs => decide (i = j) && jsEqF fs gs
  | .jset i es, .jset j fs => decide (i = j) && jsEqL es fs
  | .jmap i en, .jmap j em => decide (i = j) && jsEqE en em
  | _, _ => false
def jsEqL : JList → JList → Bool
  | .nil, .nil => true
  | .cons a as, .cons b bs => jsEqV a b && jsEqL as bs
  | _, _ => false
def jsEqF : JFields → JFields → Bool
  | .nil, .nil => true
  | .cons k v tl, .cons k2 v2 tl2 => decide (k = k2) && jsEqV v v2 && jsEqF tl tl2
  | _, _ => false
def jsEqE : JEntries → JEntries → Bool
  | .nil, .nil => true
  | .cons k v tl, .cons k2 v2 tl2 => jsEqV k k2 && jsEqV v v2 && jsEqE tl tl2
  | _, _ => false
end

/-- The `typeof` operator; `typeof null === 'object'`. -/
def typeOf : JVal → String
  | .prim .pnull => "object"
  | .prim .pundefined => "undefined"
  | .prim (.pbool _) => "boolean"
  | .prim (.pnum _) => "number"
  | .prim (.pstr _) => "string"
  | _ => "object"

/-- Strict-equality test against `null`. -/
def isNullV : JVal → Bool
  | .prim .pnull => true
  | _ => false

/-- The `Array.isArray` test. -/
def isArrV : JVal → Bool
  | .arr _ _ => true
  | _ => false

/-- Primitive recognizer (`typeof v !== 'object'` or `null`): values with
no reference identity. -/
def isPrimV : JVal → Bool
  | .prim _ => true
  | _ => false

/-- Length of an embedded element list. -/
def lenL : JList → ℕ
  | .nil => 0
  | .cons _ tl => lenL tl + 1

/-- Field names of a record, in insertion order. -/
def namesF : JFields → List String
  | .nil => []
  | .cons k _ tl => k :: namesF tl

/-- Field list as ordinary pairs, for stating lemmas. -/
def fpairs : JFields → List (String × JVal)
  | .nil => []
  | .cons k v tl => (k, v) :: fpairs tl

/-- First-match field lookup, `undefined` when absent (property read on a
record). -/
def lookupF : JFields → String → JVal
  | .nil, _ => .prim .pundefined
  | .cons k v tl, k2 => if k = k2 then v else lookupF tl k2

/-- The own enumerable keys, `Object.keys`: field names for records, index
strings for arrays, empty for dates, sets, maps and primitives. -/
def jsKeys : JVal → List String
  | .obj _ fs => namesF fs
  | .arr _ es => (List.range (lenL es)).map (fun i => toString i)
  | _ => []

/-- Property read `b[key]`: meaningful on records, `undefined` elsewhere. -/
def jsIndex : JVal → String → JVal
  | .obj _ fs, k => lookupF fs k
  | _, _ => .prim .pundefined

/-- Allocation id of the root of a value, `none` for primitives. -/
def rootId : JVal → Option ℕ
  | .prim _ => none
  | .date i _ => some i
  | .arr i _ => some i
  | .obj i _ => some i
  | .jset i _ => some i
  | .jmap i _ => some i

end ObjectUtils

namespace ObjectUtils

/- Model of `deepEqual` (src/utils/objectUtils.ts lines 31-55), translated
guard for guard: strict equality, the null checks, the typeof checks, the
two-Dates branch, the two-arrays branch (length first, then element-wise),
the either-array rejection, and finally the key-set comparison with
recursion on the shared keys.  `deepEqualKeys` iterates the own fields of
the left record (its keys with their values, which is `a[key]` for the JS
record invariant of unique keys) against lookups in the right value. -/
mutual
def deepEqual (a b : JVal) : Bool :=
  if jsEqV a b then true
  else if isNullV a || isNullV b then false
  else if typeOf a != typeOf b then false
  else if typeOf a != "object" then false
  else
    match a, b with
    | .date _ t1, .date _ t2 => decide (t1 = t2)
    | .arr _ es, .arr _ fs => lenL es == lenL fs && deepEqualL es fs
    | .arr _ _, _ => false
    | _, .arr _ _ => false
    | .obj i fs, _ =>
        (jsKeys (.obj i fs)).length == (jsKeys b).length && deepEqualKeys fs b
    | _, _ => (jsKeys a).length == (jsKeys b).length
termination_by sizeOf a
def deepEqualL : JList → JList → Bool
  | .nil, _ => true
  | .cons _ _, .nil => false
  | .cons x xs, .cons y ys => deepEqual x y && deepEqualL xs ys
termination_by l _ => sizeOf l
def deepEqualKeys : JFields → JVal → Bool
  | .nil, _ => true
  | .cons k v tl, b =>
      (jsKeys b).contains k && deepEqual v (jsIndex b k) && deepEqualKeys tl b
termination_by fs _ => sizeOf fs
end

/- Model of `deepClone` (src/utils/objectUtils.ts lines 8-26): primitives
are returned unchanged, composite values are rebuilt recursively.  The
fresh-counter argument models the allocator: every composite node of the
result receives a fresh id, the root taking the id `c` it was called
with. -/
mutual
def cloneV : JVal → ℕ → JVal × ℕ
  | .prim p, c => (.prim p, c)
  | .date _ t, c => (.date c t, c + 1)
  | .arr _ es, c =>
      let r := cloneL es (c + 1)
      (.arr c r.1, r.2)
  | .obj _ fs, c =>
      let r := cloneF fs (c + 1)
      (.obj c r.1, r.2)
  | .jset _ es, c =>
      let r := cloneL es (c + 1)
      (.jset c r.1, r.2)
  | .jmap _ en, c =>
      let r := cloneE en (c + 1)
      (.jmap c r.1, r.2)
def cloneL : JList → ℕ → JList × ℕ
  | .nil, c => (.nil, c)
  | .cons v tl, c =>
      let rv := cloneV v c
      let rt := cloneL tl rv.2
      (.cons rv.1 rt.1, rt.2)
def cloneF : JFields → ℕ → JFields × ℕ
  | .nil, c => (.nil, c)
  | .cons k v tl, c =>
      let rv := cloneV v c
      let rt := cloneF tl rv.2
      (.cons k rv.1 rt.1, rt.2)
def cloneE : JEntries → ℕ → JEntries × ℕ
  | .nil, c => (.nil, c)
  | .cons k v tl, c =>
      let rk := cloneV k c
      let rv := cloneV v rk.2
      let rt := cloneE tl rv.2
      (.cons rk.1 rv.1 rt.1, rt.2)
end

/-- Duplicate-freedom of a key list. -/
def nodupB : List String → Bool
  | [] => true
  | k :: ks => !(ks.contains k) && nodupB ks

/- Well-formedness of a value as a JS heap value: record field names are
duplicate-free, recursively.  Every real JavaScript object satisfies
this. -/
mutual
def wfV : JVal → Bool
  | .prim _ => true
  | .date _ _ => true
  | .arr _ es => wfL es
  | .obj _ fs => nodupB (namesF fs) && wfF fs
  | .jset _ es => wfL es
  | .jmap _ en => wfE en
def wfL : JList → Bool
  | .nil => true
  | .cons v tl => wfV v && wfL tl
def wfF : JFields → Bool
  | .nil => true
  | .cons _ v tl => wfV v && wfF tl
def wfE : JEntries → Bool
  | .nil => true
  | .cons k v tl => wfV k && wfV v && wfE tl
end

end ObjectUtils

namespace ObjectUtils

/-- Cloning preserves the field names of a record. -/
theorem namesF_cloneF : ∀ (fs : JFields) (c : ℕ),
    namesF (cloneF fs c).1 = namesF fs
  | .nil, _ => rfl
  | .cons k v tl, c => by
      simp [cloneF, namesF, namesF_cloneF tl]

/-- Cloning preserves the length of an element list. -/
theorem lenL_cloneL : ∀ (l : JList) (c : ℕ),
    lenL (cloneL l c).1 = lenL l
  | .nil, _ => rfl
  | .cons v tl, c => by
      simp [cloneL, lenL, lenL_cloneL tl]

/-- A field pair's key occurs among the record's names. -/
theorem mem_namesF_of_mem_fpairs :
    ∀ (fs : JFields) (kv : String × JVal),
      kv ∈ fpairs fs → kv.1 ∈ namesF fs
  | .nil, kv => by intro h; simp [fpairs] at h
  | .cons k v tl, kv => by
      intro h
      rw [fpairs] at h
      rcases List.mem_cons.1 h with h | h
      · simp [namesF, h]
      · simp [namesF]
        exact Or.inr (mem_namesF_of_mem_fpairs tl kv h)

/-- With duplicate-free names, looking a field pair's key up yields that
pair's value. -/
theorem lookupF_fpairs :
    ∀ (fs : JFields), nodupB (namesF fs) = true →
      ∀ kv ∈ fpairs fs, lookupF fs kv.1 = kv.2
  | .nil => by intro _ kv h; simp [fpairs] at h
  | .cons k v tl => by
      intro hnd kv h
      rw [namesF, nodupB, Bool.and_eq_true] at hnd
      rw [fpairs] at h
      rcases List.mem_cons.1 h with h | h
      · rw [h]
        simp [lookupF]
      · have hk2 : kv.1 ∈ namesF tl := mem_namesF_of_mem_fpairs tl kv h
        have hkne : k ≠ kv.1 := by
          intro hcon
          rw [hcon] at hnd
          have := hnd.1
          simp [List.contains] at this
          exact absurd hk2 this
        rw [lookupF, if_neg hkne]
        exact lookupF_fpairs tl hnd.2 kv h

end ObjectUtils

namespace ObjectUtils

mutual
/-- Core of C2: a clone is deep-equal to the original. -/
theorem cloneV_deepEqual : ∀ (v : JVal) (c : ℕ),
    wfV v = true → deepEqual (cloneV v c).1 v = true
  | .prim p, c => by
      intro _
      simp [cloneV, deepEqual, jsEqV]
  | .date i t, c => by
      intro _
      simp [cloneV, deepEqual, jsEqV, isNullV, typeOf]
  | .arr i es, c => by
      intro hwf
      rw [wfV] at hwf
      have hlen := lenL_cloneL es (c + 1)
      have hL := cloneL_deepEqualL es (c + 1) hwf
      simp [cloneV, deepEqual, isNullV, typeOf, hlen, hL]
  | .obj i fs, c => by
      intro hwf
      rw [wfV, Bool.and_eq_true] at hwf
      have hnames := namesF_cloneF fs (c + 1)
      have hK := cloneF_deepEqualKeys fs (c + 1) (.obj i fs) hwf.2 ?_
      · simp [cloneV, deepEqual, isNullV, typeOf, jsKeys, hnames, hK]
      · intro kv hkv
        refine ⟨?_, ?_⟩
        · have hm := mem_namesF_of_mem_fpairs fs kv hkv
          simp [jsKeys, List.contains]
          simpa [List.elem_iff] using hm
        · rw [jsIndex]
          exact lookupF_fpairs fs hwf.1 kv hkv
  | .jset i es, c => by
      intro _
      simp [cloneV, deepEqual, isNullV, typeOf, jsKeys]
  | .jmap i en, c => by
      intro _
      simp [cloneV, deepEqual, isNullV, typeOf, jsKeys]

/-- Element lists clone to deep-equal element lists. -/
theorem cloneL_deepEqualL : ∀ (l : JList) (c : ℕ),
    wfL l = true → deepEqualL (cloneL l c).1 l = true
  | .nil, c => by
      intro _
      simp [cloneL, deepEqualL]
  | .cons v tl, c => by
      intro hwf
      rw [wfL, Bool.and_eq_true] at hwf
      have h1 := cloneV_deepEqual v c hwf.1
      have h2 := cloneL_deepEqualL tl (cloneV v c).2 hwf.2
      simp [cloneL, deepEqualL, h1, h2]

/-- Cloned fields pass the shared-key recursion of `deepEqual` against any
value that contains each original field. -/
theorem cloneF_deepEqualKeys : ∀ (fs : JFields) (c : ℕ) (b : JVal),
    wfF fs = true →
    (∀ kv ∈ fpairs fs,
      (jsKeys b).contains kv.1 = true ∧ jsIndex b kv.1 = kv.2) →
    deepEqualKeys (cloneF fs c).1 b = true
  | .nil, c, b => by
      intro _ _
      simp [cloneF, deepEqualKeys]
  | .cons k v tl, c, b => by
      intro hwf hyp
      rw [wfF, Bool.and_eq_true] at hwf
      have hhead := hyp (k, v) (by rw [fpairs]; exact List.mem_cons_self _ _)
      have hv : deepEqual (cloneV v c).1 (jsIndex b k) = true := by
        rw [hhead.2]
        exact cloneV_deepEqual v c hwf.1
      have htl := cloneF_deepEqualKeys tl (cloneV v c).2 b hwf.2
        (fun kv hkv => hyp kv (by rw [fpairs]; exact List.mem_cons_of_mem _ hkv))
      have hmem : k ∈ jsKeys b := by
        simpa [List.contains, List.elem_iff] using hhead.1
      simp [cloneF, deepEqualKeys, hmem, hv, htl]
end

end ObjectUtils

namespace ObjectUtils

/-- Freshness of a counter for a value: the root allocation id (if any) is
below the counter, as holds when the counter models the next fresh heap
id. -/
def rootIdLtB (v : JVal) (c : ℕ) : Bool :=
  match rootId v with
  | none => true
  | some i => decide (i < c)

/-- The clone of a composite value is rooted at the fresh id it was called
with. -/
theorem rootId_cloneV : ∀ (v : JVal) (c : ℕ),
    isPrimV v = false → rootId (cloneV v c).1 = some c
  | .prim _, _ => by intro h; simp [isPrimV] at h
  | .date _ _, _ => by intro _; simp [cloneV, rootId]
  | .arr _ _, _ => by intro _; simp [cloneV, rootId]
  | .obj _ _, _ => by intro _; simp [cloneV, rootId]
  | .jset _ _, _ => by intro _; simp [cloneV, rootId]
  | .jmap _ _, _ => by intro _; simp [cloneV, rootId]

/-- A composite value whose root id is below the counter has one. -/
theorem rootId_lt_of_rootIdLtB : ∀ (v : JVal) (c : ℕ),
    isPrimV v = false → rootIdLtB v c = true →
    ∃ i, rootId v = some i ∧ i < c
  | .prim _, _ => by intro h _; simp [isPrimV] at h
  | .date i _, c => by
      intro _ h
      simp [rootIdLtB, rootId] at h
      exact ⟨i, rfl, h⟩
  | .arr i _, c => by
      intro _ h
      simp [rootIdLtB, rootId] at h
      exact ⟨i, rfl, h⟩
  | .obj i _, c => by
      intro _ h
      simp [rootIdLtB, rootId] at h
      exact ⟨i, rfl, h⟩
  | .jset i _, c => by
      intro _ h
      simp [rootIdLtB, rootId] at h
      exact ⟨i, rfl, h⟩
  | .jmap i _, c => by
      intro _ h
      simp [rootIdLtB, rootId] at h
      exact ⟨i, rfl, h⟩

end ObjectUtils

/-- C2: for every acyclic well-formed composite value (record keys
duplicate-free, as in any real JS object) and fresh allocation counter,
the deep clone is deep-equal to the original, and for non-primitive values
the clone is reference-distinct: its root allocation id is the fresh id,
different from the original root id. -/
theorem deepClone_spec (v : ObjectUtils.JVal) (c : ℕ)
    (hwf : ObjectUtils.wfV v = true)
    (hid : ObjectUtils.rootIdLtB v c = true) :
    ObjectUtils.deepEqual (ObjectUtils.cloneV v c).1 v = true ∧
      (ObjectUtils.isPrimV v = false →
        ObjectUtils.rootId (ObjectUtils.cloneV v c).1 ≠
          ObjectUtils.rootId v) := by
  refine ⟨ObjectUtils.cloneV_deepEqual v c hwf, ?_⟩
  intro hp
  rw [ObjectUtils.rootId_cloneV v c hp]
  obtain ⟨i, hi, hlt⟩ := ObjectUtils.rootId_lt_of_rootIdLtB v c hp hid
  rw [hi]
  intro hcon
  rw [Option.some_inj] at hcon
  omega

/-- Witness for C2 on the record &#123;a: 1&#125; with fresh counter 5. -/
theorem deepClone_spec_witness :
    ObjectUtils.deepEqual
        (ObjectUtils.cloneV
          (ObjectUtils.JVal.obj 0
            (ObjectUtils.JFields.cons "a"
              (ObjectUtils.JVal.prim (ObjectUtils.Prim.pnum 1))
              ObjectUtils.JFields.nil)) 5).1
        (ObjectUtils.JVal.obj 0
          (ObjectUtils.JFields.cons "a"
            (ObjectUtils.JVal.prim (ObjectUtils.Prim.pnum 1))
            ObjectUtils.JFields.nil)) = true ∧
      (ObjectUtils.isPrimV
          (ObjectUtils.JVal.obj 0
            (ObjectUtils.JFields.cons "a"
              (ObjectUtils.JVal.prim (ObjectUtils.Prim.pnum 1))
              ObjectUtils.JFields.nil)) = false →
        ObjectUtils.rootId
            (ObjectUtils.cloneV
              (ObjectUtils.JVal.obj 0
                (ObjectUtils.JFields.cons "a"
                  (ObjectUtils.JVal.prim (ObjectUtils.Prim.pnum 1))
                  ObjectUtils.JFields.nil)) 5).1 ≠
          ObjectUtils.rootId
            (ObjectUtils.JVal.obj 0
              (ObjectUtils.JFields.cons "a"
                (ObjectUtils.JVal.prim (ObjectUtils.Prim.pnum 1))
                ObjectUtils.JFields.nil))) :=
  deepClone_spec _ 5
    (by simp [ObjectUtils.wfV, ObjectUtils.wfF, ObjectUtils.nodupB,
      ObjectUtils.namesF])
    (by decide)

namespace ObjectUtils

/-- Kind (shape) of a value: the classification the claim compares. -/
inductive Kind : Type where
  | knull
  | kundefined
  | kbool
  | knum
  | kstr
  | kdate
  | karr
  | kobj
  | kset
  | kmap
deriving DecidableEq

/-- Kind of a value. -/
def kindOf : JVal → Kind
  | .prim .pnull => .knull
  | .prim .pundefined => .kundefined
  | .prim (.pbool _) => .kbool
  | .prim (.pnum _) => .knum
  | .prim (.pstr _) => .kstr
  | .date _ _ => .kdate
  | .arr _ _ => .karr
  | .obj _ _ => .kobj
  | .jset _ _ => .kset
  | .jmap _ _ => .kmap

/-- Values with no own enumerable keys among the non-array object kinds:
temporal instants, sets, maps, and the empty record.  On these the key-set
comparison of `deepEqual` is vacuous. -/
def vacuous : JVal → Bool
  | .date _ _ => true
  | .jset _ _ => true
  | .jmap _ _ => true
  | .obj _ .nil => true
  | _ => false

/-- Strict equality never holds across kinds. -/
theorem jsEqV_false_of_kind_ne (a b : JVal) (h : kindOf a ≠ kindOf b) :
    jsEqV a b = false := by
  cases a <;> cases b <;>
    first
      | exact absurd rfl h
      | (simp [jsEqV]; try (intro hcon; subst hcon; exact h rfl))

end ObjectUtils

/-- C4 counterexample: an empty record and a temporal instant have
different kinds, yet `deepEqual` returns true: both fall to the key-set
comparison with zero own keys, which is vacuously satisfied. -/
theorem deepEqual_kind_mismatch_counterexample :
    ObjectUtils.kindOf (ObjectUtils.JVal.obj 0 ObjectUtils.JFields.nil) ≠
        ObjectUtils.kindOf (ObjectUtils.JVal.date 1 0) ∧
      ObjectUtils.deepEqual (ObjectUtils.JVal.obj 0 ObjectUtils.JFields.nil)
        (ObjectUtils.JVal.date 1 0) = true := by
  constructor
  · decide
  · simp [ObjectUtils.deepEqual, ObjectUtils.jsEqV, ObjectUtils.isNullV,
      ObjectUtils.typeOf, ObjectUtils.jsKeys, ObjectUtils.namesF,
      ObjectUtils.deepEqualKeys]

/-- C4 (amended): for values of differing kinds `deepEqual` never throws
and returns false, except when both values are keyless non-array object
kinds (temporal instant, set, map, or empty record): those pairs fall to
the vacuous key-set comparison and compare equal. -/
theorem deepEqual_kind_mismatch (a b : ObjectUtils.JVal)
    (h : ObjectUtils.kindOf a ≠ ObjectUtils.kindOf b) :
    ObjectUtils.deepEqual a b =
      (ObjectUtils.vacuous a && ObjectUtils.vacuous b) := by
  have hjs : ObjectUtils.jsEqV a b = false :=
    ObjectUtils.jsEqV_false_of_kind_ne a b h
  cases a with
  | prim p =>
    cases b with
    | prim q =>
      cases p <;> cases q <;>
        first
          | exact absurd rfl h
          | simp [ObjectUtils.deepEqual, hjs, ObjectUtils.isNullV,
              ObjectUtils.typeOf, ObjectUtils.vacuous]
    | date j u =>
      cases p <;>
        simp [ObjectUtils.deepEqual, hjs, ObjectUtils.isNullV,
          ObjectUtils.typeOf, ObjectUtils.vacuous]
    | arr j es =>
      cases p <;>
        simp [ObjectUtils.deepEqual, hjs, ObjectUtils.isNullV,
          ObjectUtils.typeOf, ObjectUtils.vacuous]
    | obj j fs =>
      cases p <;>
        simp [ObjectUtils.deepEqual, hjs, ObjectUtils.isNullV,
          ObjectUtils.typeOf, ObjectUtils.vacuous]
    | jset j es =>
      cases p <;>
        simp [ObjectUtils.deepEqual, hjs, ObjectUtils.isNullV,
          ObjectUtils.typeOf, ObjectUtils.vacuous]
    | jmap j en =>
      cases p <;>
        simp [ObjectUtils.deepEqual, hjs, ObjectUtils.isNullV,
          ObjectUtils.typeOf, ObjectUtils.vacuous]
  | date i t =>
    cases b with
    | prim q =>
      cases q <;>
        simp [ObjectUtils.deepEqual, hjs, ObjectUtils.isNullV,
          ObjectUtils.typeOf, ObjectUtils.vacuous]
    | date j u => exact absurd rfl h
    | arr j es =>
      simp [ObjectUtils.deepEqual, hjs, ObjectUtils.isNullV,
        ObjectUtils.typeOf, ObjectUtils.vacuous]
    | obj j fs =>
      cases fs <;>
        simp [ObjectUtils.deepEqual, hjs, ObjectUtils.isNullV,
          ObjectUtils.typeOf, ObjectUtils.vacuous, ObjectUtils.jsKeys,
          ObjectUtils.namesF]
    | jset j es =>
      simp [ObjectUtils.deepEqual, hjs, ObjectUtils.isNullV,
        ObjectUtils.typeOf, ObjectUtils.vacuous, ObjectUtils.jsKeys]
    | jmap j en =>
      simp [ObjectUtils.deepEqual, hjs, ObjectUtils.isNullV,
        ObjectUtils.typeOf, ObjectUtils.vacuous, ObjectUtils.jsKeys]
  | arr i es =>
    cases b with
    | prim q =>
      cases q <;>
        simp [ObjectUtils.deepEqual, hjs, ObjectUtils.isNullV,
          ObjectUtils.typeOf, ObjectUtils.vacuous]
    | date j u =>
      simp [ObjectUtils.deepEqual, hjs, ObjectUtils.isNullV,
        ObjectUtils.typeOf, ObjectUtils.vacuous]
    | arr j fs => exact absurd rfl h
    | obj j fs =>
      simp [ObjectUtils.deepEqual, hjs, ObjectUtils.isNullV,
        ObjectUtils.typeOf, ObjectUtils.vacuous]
    | jset j fs =>
      simp [ObjectUtils.deepEqual, hjs, ObjectUtils.isNullV,
        ObjectUtils.typeOf, ObjectUtils.vacuous]
    | jmap j en =>
      simp [ObjectUtils.deepEqual, hjs, ObjectUtils.isNullV,
        ObjectUtils.typeOf, ObjectUtils.vacuous]
  | obj i fs =>
    cases b with
    | prim q =>
      cases q <;>
        simp [ObjectUtils.deepEqual, hjs, ObjectUtils.isNullV,
          ObjectUtils.typeOf, ObjectUtils.vacuous]
    | date j u =>
      cases fs <;>
        simp [ObjectUtils.deepEqual, hjs, ObjectUtils.isNullV,
          ObjectUtils.typeOf, ObjectUtils.vacuous, ObjectUtils.jsKeys,
          ObjectUtils.namesF, ObjectUtils.deepEqualKeys]
    | arr j es =>
      simp [ObjectUtils.deepEqual, hjs, ObjectUtils.isNullV,
        ObjectUtils.typeOf, ObjectUtils.vacuous]
    | obj j gs => exact absurd rfl h
    | jset j es =>
      cases fs <;>
        simp [ObjectUtils.deepEqual, hjs, ObjectUtils.isNullV,
          ObjectUtils.typeOf, ObjectUtils.vacuous, ObjectUtils.jsKeys,
          ObjectUtils.namesF, ObjectUtils.deepEqualKeys]
    | jmap j en =>
      cases fs <;>
        simp [ObjectUtils.deepEqual, hjs, ObjectUtils.isNullV,
          ObjectUtils.typeOf, ObjectUtils.vacuous, ObjectUtils.jsKeys,
          ObjectUtils.namesF, ObjectUtils.deepEqualKeys]
  | jset i es =>
    cases b with
    | prim q =>
      cases q <;>
        simp [ObjectUtils.deepEqual, hjs, ObjectUtils.isNullV,
          ObjectUtils.typeOf, ObjectUtils.vacuous]
    | date j u =>
      simp [ObjectUtils.deepEqual, hjs, ObjectUtils.isNullV,
        ObjectUtils.typeOf, ObjectUtils.vacuous, ObjectUtils.jsKeys]
    | arr j fs =>
      simp [ObjectUtils.deepEqual, hjs, ObjectUtils.isNullV,
        ObjectUtils.typeOf, ObjectUtils.vacuous]
    | obj j fs =>
      cases fs <;>
        simp [ObjectUtils.deepEqual, hjs, ObjectUtils.isNullV,
          ObjectUtils.typeOf, ObjectUtils.vacuous, ObjectUtils.jsKeys,
          ObjectUtils.namesF]
    | jset j fs => exact absurd rfl h
    | jmap j en =>
      simp [ObjectUtils.deepEqual, hjs, ObjectUtils.isNullV,
        ObjectUtils.typeOf, ObjectUtils.vacuous, ObjectUtils.jsKeys]
  | jmap i en =>
    cases b with
    | prim q =>
      cases q <;>
        simp [ObjectUtils.deepEqual, hjs, ObjectUtils.isNullV,
          ObjectUtils.typeOf, ObjectUtils.vacuous]
    | date j u =>
      simp [ObjectUtils.deepEqual, hjs, ObjectUtils.isNullV,
        ObjectUtils.typeOf, ObjectUtils.vacuous, ObjectUtils.jsKeys]
    | arr j fs =>
      simp [ObjectUtils.deepEqual, hjs, ObjectUtils.isNullV,
        ObjectUtils.typeOf, ObjectUtils.vacuous]
    | obj j fs =>
      cases fs <;>
        simp [ObjectUtils.deepEqual, hjs, ObjectUtils.isNullV,
          ObjectUtils.typeOf, ObjectUtils.vacuous, ObjectUtils.jsKeys,
          ObjectUtils.namesF]
    | jset j fs =>
      simp [ObjectUtils.deepEqual, hjs, ObjectUtils.isNullV,
        ObjectUtils.typeOf, ObjectUtils.vacuous, ObjectUtils.jsKeys]
    | jmap j em => exact absurd rfl h

/-- Witness for C4 (amended): a record with one field against a temporal
instant is a kind mismatch on which `deepEqual` returns false. -/
theorem deepEqual_kind_mismatch_witness :
    ObjectUtils.deepEqual
        (ObjectUtils.JVal.obj 0
          (ObjectUtils.JFields.cons "a"
            (ObjectUtils.JVal.prim (ObjectUtils.Prim.pnum 1))
            ObjectUtils.JFields.nil))
        (ObjectUtils.JVal.date 1 0) =
      (ObjectUtils.vacuous
          (ObjectUtils.JVal.obj 0
            (ObjectUtils.JFields.cons "a"
              (ObjectUtils.JVal.prim (ObjectUtils.Prim.pnum 1))
              ObjectUtils.JFields.nil)) &&
        ObjectUtils.vacuous (ObjectUtils.JVal.date 1 0)) :=
  deepEqual_kind_mismatch
    (ObjectUtils.JVal.obj 0
      (ObjectUtils.JFields.cons "a"
        (ObjectUtils.JVal.prim (ObjectUtils.Prim.pnum 1))
        ObjectUtils.JFields.nil))
    (ObjectUtils.JVal.date 1 0) (by decide)
